import Mathlib

/-!
Verification development for the `kush` shell (src/kush.c).

The C source is embedded shallowly: the line buffer handed to
`kush_tokenize` is a `List Char` modelling the `getline` buffer
(the line's characters, trailing newline included, followed by the
terminating NUL).  In-place mutation performed by `strtok` and by the
quote-rejoining logic is modelled by explicit `List.set` updates, and
pointers are modelled by `Nat` offsets into that buffer.  The one place
where the C code computes `strlen(start) - 1` in `unsigned long`
arithmetic is modelled with an explicit `% 2 ^ 64`.
-/

namespace Kush

/-- The NUL character terminating C strings. -/
def NUL : Char := Char.ofNat 0

/-- The double-quote character. -/
def DQ : Char := Char.ofNat 34

/-- The single-quote character. -/
def SQ : Char := Char.ofNat 39

/-- Modulus of C `unsigned long` arithmetic on the target platform. -/
def U64 : Nat := 2 ^ 64

/-- KUSH_TOK_BUFF_SIZE: initial size for the token buffer. -/
def KUSH_TOK_BUFF_SIZE : Nat := 64

/-- KUSH_TOK_DELIM " \t\r\n\a": characters that delimit one token from the next. -/
def KUSH_TOK_DELIM : List Char := [' ', '\t', '\r', '\n', Char.ofNat 7]

/-- Whether a character is one of the strtok delimiters. -/
def isDelim (c : Char) : Bool := KUSH_TOK_DELIM.contains c

/-- Memory read `buf[i]` in the flat-memory model; positions past the end of
the modelled allocation read as NUL (the claims about access positions are
stated separately, on the recorded offsets themselves). -/
def rd (buf : List Char) (i : Nat) : Char := buf.getD i NUL

/-- Position of the first non-delimiter character at or after `sp`
(strtok skipping leading delimiters). -/
def skipDelims (buf : List Char) (sp : Nat) : Nat :=
  sp + ((buf.drop sp).takeWhile isDelim).length

/-- Position of the first delimiter or NUL at or after `i`
(strtok scanning to the end of the current token). -/
def scanToken (buf : List Char) (i : Nat) : Nat :=
  i + ((buf.drop i).takeWhile (fun c => !isDelim c && c != NUL)).length

/-- C `strlen` of the string starting at offset `p`: number of characters
before the first NUL at or after `p` (the modelled buffer always ends in
NUL, so the scan is bounded). -/
def strlenAt (buf : List Char) (p : Nat) : Nat :=
  ((buf.drop p).takeWhile (fun c => c != NUL)).length

/-- The C string starting at offset `p`: the characters before the first
NUL at or after `p`. -/
def cstrAt (buf : List Char) (p : Nat) : List Char :=
  (buf.drop p).takeWhile (fun c => c != NUL)

/-- One `strtok(NULL, KUSH_TOK_DELIM)` step from saved position `sp`:
skips leading delimiters, returns `none` at NUL (end of string), otherwise
returns the token span `(ts, te)`, the buffer after strtok's NUL write over
the delimiter ending the token, and the new saved position. -/
def strtokNext (buf : List Char) (sp : Nat) : Option (Nat × Nat × List Char × Nat) :=
  let ts := skipDelims buf sp
  if rd buf ts = NUL then none
  else
    let te := scanToken buf (ts + 1)
    if isDelim (rd buf te) then some (ts, te, buf.set te NUL, te + 1)
    else some (ts, te, buf, te)

/-- Result alternatives of `kush_tokenize`: a NULL-terminated token list
(`ok`, carrying the stored token offsets in order), the NULL return after a
missing closing quote (`fail`, carrying the quote character named in the
error message printed to stderr), or fuel exhaustion of the model
(`noFuel`, unreachable for the fuel used by `kush_tokenize`). -/
inductive TokResult where
  | ok (offs : List Nat)
  | fail (q : Char)
  | noFuel
deriving DecidableEq

/-- Observable outcome of `kush_tokenize`: the result, the final contents of
the line buffer (token strings alias it), the position `pos` of the final
`tokens[pos] = NULL` write together with the buffer capacity `buff_size` at
that moment, and the offsets of every `&start[strlen(start) - 1]` access
performed by the closing-quote check. -/
structure TokOut where
  res : TokResult
  buf : List Char
  finalPos : Nat
  finalCap : Nat
  closeAccesses : List Nat
deriving DecidableEq

/-- The inner rejoining loop of `kush_tokenize` (src/kush.c lines 142-152):
while there is a token and it does not end with the matching quote
character, put a space over the NUL that strtok wrote at the token's end
(`token[strlen(token)] = ' '`) and fetch the next token.  Returns the
buffer, the strtok position, and the final token span (`none` when input
was exhausted). -/
def absorb (fuel : Nat) (buf : List Char) (sp ts te : Nat) (q : Char) :
    Option (List Char × Nat × Option (Nat × Nat)) :=
  match fuel with
  | 0 => none
  | fuel + 1 =>
    if (q == DQ && !(cstrAt buf (ts + strlenAt buf ts - 1) == [DQ]))
        || (q == SQ && !(cstrAt buf (ts + strlenAt buf ts - 1) == [SQ])) then
      let buf1 := buf.set (ts + strlenAt buf ts) ' '
      match strtokNext buf1 sp with
      | none => some (buf1, sp, none)
      | some (ts1, te1, buf2, sp2) => absorb fuel buf2 sp2 ts1 te1 q
    else some (buf, sp, some (ts, te))

/-- The token loop of `kush_tokenize` (src/kush.c lines 136-185).  `cur` is
the token just fetched by strtok (`none` ends the loop with the
`tokens[pos] = NULL` write), `sp` the strtok position, `pos` and `cap` the
token-list position and `buff_size`, `acc` the stored token offsets and
`accs` the recorded closing-quote access offsets (both in reverse).  After
storing a token, the next one is fetched and `buff_size` is increased by
`KUSH_TOK_BUFF_SIZE` exactly when `pos >= buff_size` and a further token
exists. -/
def tokLoop (fuel : Nat) (buf : List Char) (sp : Nat) (cur : Option (Nat × Nat))
    (pos cap : Nat) (acc accs : List Nat) : TokOut :=
  match fuel with
  | 0 => ⟨.noFuel, buf, pos, cap, accs.reverse⟩
  | fuel + 1 =>
    match cur with
    | none => ⟨.ok acc.reverse, buf, pos, cap, accs.reverse⟩
    | some (ts, te) =>
      if rd buf ts == DQ || rd buf ts == SQ then
        let q := rd buf ts
        let start := ts + 1
        match absorb (fuel + 1) buf sp ts te q with
        | none => ⟨.noFuel, buf, pos, cap, accs.reverse⟩
        | some (buf2, sp2, _) =>
          let n := strlenAt buf2 start
          let last := (n + (U64 - 1)) % U64
          let a := (start + last) % U64
          if (q == DQ && cstrAt buf2 a == [DQ]) || (q == SQ && cstrAt buf2 a == [SQ]) then
            let buf3 := buf2.set a NUL
            let pos1 := pos + 1
            match strtokNext buf3 sp2 with
            | none => tokLoop fuel buf3 sp2 none pos1 cap (start :: acc) (a :: accs)
            | some (ts1, te1, buf4, sp3) =>
              let cap1 := if cap ≤ pos1 then cap + KUSH_TOK_BUFF_SIZE else cap
              tokLoop fuel buf4 sp3 (some (ts1, te1)) pos1 cap1 (start :: acc) (a :: accs)
          else ⟨.fail q, buf2, pos, cap, (a :: accs).reverse⟩
      else
        let pos1 := pos + 1
        match strtokNext buf sp with
        | none => tokLoop fuel buf sp none pos1 cap (ts :: acc) accs
        | some (ts1, te1, buf1, sp1) =>
          let cap1 := if cap ≤ pos1 then cap + KUSH_TOK_BUFF_SIZE else cap
          tokLoop fuel buf1 sp1 (some (ts1, te1)) pos1 cap1 (ts :: acc) accs

/-- The function `kush_tokenize` (src/kush.c lines 122-187) on a line buffer (line
characters, trailing newline included, followed by the terminating NUL).
The initial `malloc` of the 64-slot token list is modelled as succeeding
(its failure is a fatal `exit`).  The fuel `buf.length + 2` is enough for
the loop to run to completion, since every strtok step consumes at least
one buffer position. -/
def kush_tokenize (buf : List Char) : TokOut :=
  match strtokNext buf 0 with
  | none => tokLoop (buf.length + 2) buf 0 none 0 KUSH_TOK_BUFF_SIZE [] []
  | some (ts, te, buf1, sp1) =>
      tokLoop (buf.length + 2) buf1 sp1 (some (ts, te)) 0 KUSH_TOK_BUFF_SIZE [] []

/-- The token strings designated by a `kush_tokenize` result: each stored
offset read as a C string from the final buffer (token values alias the
mutated line buffer); `none` models the NULL return. -/
def tokenStrings (out : TokOut) : Option (List (List Char)) :=
  match out.res with
  | .ok offs => some (offs.map (cstrAt out.buf))
  | _ => none

/-- The `getline` buffer for a line: its characters (the trailing newline
included) followed by the terminating NUL. -/
def cbuf (line : List Char) : List Char := line ++ [NUL]

/-- The token list produced for an input line, as strings (`none` models
tokenization failure). -/
def kushTokens (line : List Char) : Option (List String) :=
  (tokenStrings (kush_tokenize (cbuf line))).map (fun l => l.map fun cs => String.mk cs)

/-- The two process-wide flags of src/kush.c lines 46-48. -/
structure ShellState where
  printed_prompt : Bool
  child_running : Bool
deriving DecidableEq

/-- Outcomes of the OS queries made by `kush_print_prompt`: the `getcwd`
result (`none` is failure), the `getpwuid` result (`none` is a NULL
`passwd` pointer), the `gethostname` return code, and the contents the
hostname buffer holds after that call. -/
structure PromptEnv where
  getcwdResult : Option String
  getpwuidResult : Option String
  gethostnameErr : Int
  hostnameBuf : String
deriving DecidableEq

/-- String placed in the username or hostname field when the lookup-failure
substitution runs (`char *unknown = "<UNKNOWN>"`, src/kush.c line 60). -/
def unknown : String := String.mk ['<', 'U', 'N', 'K', 'N', 'O', 'W', 'N', '>']

/-- What a call to `kush_print_prompt` does: exit the process with a
failure code, print one prompt line with the given fields, or print
nothing because `printed_prompt` was already set. -/
inductive PromptOut where
  | exited
  | printed (username hostname cwd : String)
  | skipped
deriving DecidableEq

/-- The function `kush_print_prompt` (src/kush.c lines 54-79): when the prompt has not
been printed yet, look up the working directory (exiting with failure when
that fails), substitute `unknown` for the username when `getpwuid`
returned NULL, substitute `unknown` for the hostname when the `gethostname`
return code is greater than zero, and print the prompt.  The function does
not write `printed_prompt`. -/
def kush_print_prompt (s : ShellState) (env : PromptEnv) : PromptOut :=
  if !s.printed_prompt then
    match env.getcwdResult with
    | some cwd =>
        let username := match env.getpwuidResult with
          | none => unknown
          | some name => name
        let hostname := if env.gethostnameErr > 0 then unknown else env.hostnameBuf
        .printed username hostname cwd
    | none => .exited
  else .skipped

/-- Output events of the shell process visible in the claims: the exit
hint printed by the signal handler, the blank line it prints while a child
runs, and a prompt print. -/
inductive OutEvent where
  | exitHint
  | blankLine
  | prompt (username hostname cwd : String)
deriving DecidableEq

/-- The `SIGINT` signal number. -/
def SIGINT : Int := 2

/-- The function `sig_handler` (src/kush.c lines 82-97): on `SIGINT`, print the exit
hint if no child process is running and a blank line otherwise, then set
`printed_prompt` to false, call `kush_print_prompt`, and set
`printed_prompt` back to true.  Returns `none` when `kush_print_prompt`
exits the process. -/
def sig_handler (signum : Int) (s : ShellState) (env : PromptEnv) :
    Option (ShellState × List OutEvent) :=
  if signum = SIGINT then
    let ev1 : OutEvent := if !s.child_running then .exitHint else .blankLine
    let s1 : ShellState := { s with printed_prompt := false }
    match kush_print_prompt s1 env with
    | .exited => none
    | .printed u h c => some ({ s1 with printed_prompt := true }, [ev1, .prompt u h c])
    | .skipped => some ({ s1 with printed_prompt := true }, [ev1])
  else some (s, [])

/-- Outcome of the `getline` call inside `kush_read_line`: a line was read,
end of input was reached, or the read failed. -/
inductive ReadResult where
  | line (content : List Char)
  | eof
  | err
deriving DecidableEq

/-- Result of `kush_read_line`: the process exited (successfully on end of
input, with a failure code on a read error), or a line was obtained and
`printed_prompt` was set to false. -/
inductive ReadOut where
  | exited (success : Bool)
  | got (s : ShellState) (content : List Char)
deriving DecidableEq

/-- The function `kush_read_line` (src/kush.c lines 100-119): exit successfully at end
of input, exit with failure on any other read error, and otherwise return
the line read after setting `printed_prompt` to false. -/
def kush_read_line (s : ShellState) (input : ReadResult) : ReadOut :=
  match input with
  | .line content => .got { s with printed_prompt := false } content
  | .eof => .exited true
  | .err => .exited false

/-- The built-in command names, in table order (src/kush.c lines 197-201). -/
def builtin_cmds : List String := ["exit", "cd", "help"]

/-- The value of `kush_num_builtins` (src/kush.c lines 211-213). -/
def kush_num_builtins : Nat := builtin_cmds.length

/-- The function `kush_exit` (src/kush.c lines 217-221): ignore the arguments and
return 1, signalling the loop to terminate. -/
def kush_exit (args : List String) : Int :=
  let _ := args
  1

/-- Error messages written to stderr, identified structurally. -/
inductive ErrMsg where
  | cdMissingArg
  | cdChdirFailed
  | forkFailed
deriving DecidableEq

/-- Observable outcome of `kush_cd`: the stderr messages, the directory
the process changed into (`none` when no successful `chdir` happened), and
the return value. -/
structure CdOut where
  errs : List ErrMsg
  newDir : Option String
  ret : Int
deriving DecidableEq

/-- The function `kush_cd` (src/kush.c lines 223-233): report a missing argument when
`args[1]` is NULL; otherwise `chdir(args[1])`, reporting the failure when
it returns nonzero.  Arguments past `args[1]` are never read.  Always
returns 0.  `chdirFails` gives the outcome of the `chdir` call per path. -/
def kush_cd (args : List String) (chdirFails : String → Bool) : CdOut :=
  match args.get? 1 with
  | none => ⟨[.cdMissingArg], none, 0⟩
  | some d =>
      if chdirFails d then ⟨[.cdChdirFailed], none, 0⟩
      else ⟨[], some d, 0⟩

/-- Outcome of the `fork` call in `kush_exec` as seen by the parent: the
fork failed, or it succeeded and `pid` names the child. -/
inductive ForkResult where
  | failed
  | parent (pid : Nat)
deriving DecidableEq

/-- Parent-side actions of `kush_exec`, in order. -/
inductive ExecEvent where
  | setChildRunning (b : Bool)
  | waited (pid : Nat)
  | errMsg (e : ErrMsg)
deriving DecidableEq

/-- Observable outcome of `kush_exec` in the parent process. -/
structure ExecOut where
  state : ShellState
  trace : List ExecEvent
  ret : Int
deriving DecidableEq

/-- The function `kush_exec` (src/kush.c lines 252-271), parent side: on fork failure,
report it and change nothing; on success, set `child_running`, wait for
the child, and clear `child_running`.  Always returns 0.  (The child
branch replaces its image or exits and never returns into this control
flow.) -/
def kush_exec (s : ShellState) (fr : ForkResult) : ExecOut :=
  match fr with
  | .failed => ⟨s, [.errMsg .forkFailed], 0⟩
  | .parent pid =>
      ⟨{ s with child_running := false },
        [.setChildRunning true, .waited pid, .setChildRunning false], 0⟩

/-- OS outcomes needed to run one command: the per-path `chdir` outcome
and the `fork` outcome. -/
structure RunEnv where
  chdirFails : String → Bool
  fork : ForkResult

/-- The function `kush_run` (src/kush.c lines 274-282): do nothing on an empty token
list, otherwise dispatch the first token against `builtin_cmds` in table
order and fall through to `kush_exec` when none matches.  Returns the new
state and the dispatch return value. -/
def kush_run (s : ShellState) (args : List String) (env : RunEnv) : ShellState × Int :=
  match args.get? 0 with
  | none => (s, 0)
  | some cmd =>
      if cmd = "exit" then (s, kush_exit args)
      else if cmd = "cd" then (s, (kush_cd args env.chdirFails).ret)
      else if cmd = "help" then (s, 0)
      else
        let eo := kush_exec s env.fork
        (eo.state, eo.ret)

/-- Inputs consumed by one iteration of `kush_loop`: the `getline`
outcome, the prompt-query outcomes, and the OS outcomes for dispatch. -/
structure IterIn where
  read : ReadResult
  penv : PromptEnv
  renv : RunEnv

/-- Result of one iteration of `kush_loop`: the process exited, or the
iteration finished with the new state, the (loop-local) `exit` value as of
the `while (!exit)` test, and whether `kush_run` was invoked. -/
inductive IterOut where
  | exited (success : Bool)
  | looped (s : ShellState) (exitVal : Int) (ranCommand : Bool)
deriving DecidableEq

/-- One iteration of `kush_loop` (src/kush.c lines 285-304): print the
prompt, read a line, tokenize it; when tokenization returned NULL,
`continue` to the loop test with `exit` unchanged and without dispatching;
otherwise dispatch through `kush_run`, which sets `exit`.  `exitVal` is
the current value of the loop-local `exit` variable. -/
def kush_loop_iter (s : ShellState) (exitVal : Int) (inp : IterIn) : IterOut :=
  match kush_print_prompt s inp.penv with
  | .exited => .exited false
  | _ =>
    match kush_read_line s inp.read with
    | .exited ok => .exited ok
    | .got s1 content =>
      match kushTokens content with
      | none => .looped s1 exitVal false
      | some args =>
        let (s2, r) := kush_run s1 args inp.renv
        .looped s2 r true

/-- Read of the immutable input line at position `p` (positions past the
end, in particular the terminating NUL of the line buffer, read as NUL). -/
def rdL (line : List Char) (p : Nat) : Char := line.getD p NUL

/-- Modelled from the spec (section 4.1): the next maximal delimiter-free
run of the immutable input line at or after position `sp`: skip the run of
delimiters, and when the line is not exhausted return the run's start and
exclusive end. -/
def pureNextRun (line : List Char) (sp : Nat) : Option (Nat × Nat) :=
  let ts := sp + ((line.drop sp).takeWhile isDelim).length
  if ts < line.length then
    some (ts, ts + 1 + ((line.drop (ts + 1)).takeWhile (fun c => !isDelim c)).length)
  else none

mutual

/-- Modelled from the spec (section 4.1): process the delimiter-split runs
of the immutable input line from position `sp`.  A run beginning with a
quote character opens a quoted span handled by `specAbsorb`; the result is
the quote character of the first unterminated span, or `none` when every
opened span closes (tokenization succeeds). -/
def specScan (line : List Char) (sp : Nat) : Option Char :=
  match h : pureNextRun line sp with
  | none => none
  | some (ts, te) =>
      if rdL line ts = DQ ∨ rdL line ts = SQ then specAbsorb line (rdL line ts) te
      else specScan line (te + 1)
termination_by (line.length - sp, 0)
decreasing_by
all_goals
  simp only [pureNextRun] at h
  split at h
  case isFalse => exact absurd h (by simp)
  case isTrue hlt =>
    simp only [Option.some.injEq, Prod.mk.injEq] at h
    obtain ⟨h1, h2⟩ := h
    have hb := (List.takeWhile_sublist
      (l := line.drop (sp + ((line.drop sp).takeWhile isDelim).length + 1))
      (fun c => !isDelim c)).length_le
    rw [List.length_drop] at hb
    exact Prod.Lex.left _ _ (by omega)

/-- Modelled from the spec (section 4.1): absorb delimiter-split runs into
a quoted span opened with quote character `q` until a run is found whose
last character is `q` (the current run, ending at `te`, counts), then
resume scanning after it; when the input is exhausted first, the span is
unterminated and tokenization fails with `q`. -/
def specAbsorb (line : List Char) (q : Char) (te : Nat) : Option Char :=
  if rdL line (te - 1) = q then specScan line (te + 1)
  else
    match h : pureNextRun line (te + 1) with
    | none => some q
    | some (ts1, te1) => specAbsorb line q te1
termination_by (line.length - te, 1)
decreasing_by
· exact Prod.Lex.right' _ (by omega) (by omega)
· simp only [pureNextRun] at h
  split at h
  case isFalse => exact absurd h (by simp)
  case isTrue hlt =>
    simp only [Option.some.injEq, Prod.mk.injEq] at h
    obtain ⟨h1, h2⟩ := h
    have hb := (List.takeWhile_sublist
      (l := line.drop (te + 1 + ((line.drop (te + 1)).takeWhile isDelim).length + 1))
      (fun c => !isDelim c)).length_le
    rw [List.length_drop] at hb
    exact Prod.Lex.left _ _ (by omega)

end

/-- The body of `specScan` once the run `(ts, te)` has been fetched. -/
def specAfterFetch (line : List Char) (ts te : Nat) : Option Char :=
  if rdL line ts = DQ ∨ rdL line ts = SQ then specAbsorb line (rdL line ts) te
  else specScan line (te + 1)

/-- Well-formed `getline` result: a nonempty line ending in the newline
that `getline` keeps, with no NUL byte among its characters (section 3 of
the spec: the input line holds exactly one line of user input including
its trailing newline). -/
def WFline (line : List Char) : Prop :=
  line ≠ [] ∧ line.getLast? = some '\n' ∧ NUL ∉ line

instance : DecidablePred WFline := fun line => by unfold WFline; infer_instance

/-- The mutated line buffer still agrees with the original line at every
position at or after `k` (strtok and the rejoining logic only write behind
the scan position). -/
def Agree (line buf : List Char) (k : Nat) : Prop :=
  buf.length = line.length + 1 ∧ ∀ p, k ≤ p → rd buf p = rdL line p

/-- Facts about the token span `(ts, te)` just fetched by strtok: a
delimiter-free run of the line followed by a delimiter, whose buffer copy
is unmutated except for the NUL strtok wrote at `te`. -/
def RunFacts (line buf : List Char) (ts te : Nat) : Prop :=
  ts < te ∧ te + 1 ≤ line.length ∧ isDelim (rdL line te)
    ∧ (∀ p, ts ≤ p → p < te → ¬isDelim (rdL line p))
    ∧ rd buf te = NUL ∧ (∀ p, ts ≤ p → p < te → rd buf p = rdL line p)

/-- Facts available when the rejoining loop of `kush_tokenize` returns,
relating its output to the spec-modelled `specAbsorb` and providing what
the closing-quote check reads: either the loop stopped at a closing run
ending at `teL` (the rejoined string runs from `start0` to `teL`, whose
last character is the quote), or input was exhausted (the rejoined string
runs to the end of the line and ends in a delimiter or restored space,
never a quote). -/
def AbsorbPost (line : List Char) (q : Char) (start0 te : Nat)
    (out : Option (List Char × Nat × Option (Nat × Nat))) : Prop :=
  (∃ buf2 tsL teL,
      out = some (buf2, teL + 1, some (tsL, teL))
      ∧ specAbsorb line q te = specScan line (teL + 1)
      ∧ Agree line buf2 (teL + 1)
      ∧ start0 ≤ teL ∧ te ≤ teL ∧ teL + 1 ≤ line.length
      ∧ strlenAt buf2 start0 = teL - start0
      ∧ rd buf2 (teL - 1) = q
      ∧ rd buf2 teL = NUL)
  ∨ (∃ buf2 spF,
      out = some (buf2, spF, none)
      ∧ specAbsorb line q te = some q
      ∧ buf2.length = line.length + 1
      ∧ strlenAt buf2 start0 = line.length - start0
      ∧ start0 ≤ line.length - 1
      ∧ rd buf2 (line.length - 1) ≠ NUL ∧ rd buf2 (line.length - 1) ≠ DQ
      ∧ rd buf2 (line.length - 1) ≠ SQ
      ∧ rd buf2 line.length = NUL)

/-- A line holding exactly 64 whitespace-separated tokens. -/
def line64 : List Char := (List.replicate 64 ['a', ' ']).flatten ++ ['\n']

/-- The line consisting of a single quote character. -/
def lineSQ : List Char := [SQ, '\n']

/-- The line `echo "a b  c"` (double space between `b` and `c`). -/
def lineDQSpaces : List Char := "echo ".toList ++ [DQ] ++ "a b  c".toList ++ [DQ] ++ ['\n']

/-- The line `echo "abc` with an unterminated double quote. -/
def lineUnterm : List Char := "echo ".toList ++ [DQ] ++ "abc".toList ++ ['\n']

/-- The line `cd 'my folder'`. -/
def lineCdQuoted : List Char := "cd ".toList ++ [SQ] ++ "my folder".toList ++ [SQ] ++ ['\n']

/-- The line `echo "a<tab><tab>b"`: a quoted span split by a delimiter run
of two tabs. -/
def lineDQTabs : List Char := "echo ".toList ++ [DQ] ++ ['a', '\t', '\t', 'b'] ++ [DQ] ++ ['\n']

/-- A prompt environment in which every OS lookup succeeds. -/
def env0 : PromptEnv := ⟨some "/", some "user", 0, "host"⟩

/-- A prompt environment in which the working-directory lookup succeeds
but the user lookup returns NULL and `gethostname` returns -1 (failure),
leaving unspecified contents in the hostname buffer. -/
def envFail : PromptEnv := ⟨some "/", none, -1, "garbagehost"⟩

/-- A run environment: every `chdir` succeeds and `fork` yields child 1. -/
def renv0 : RunEnv := ⟨fun _ => false, .parent 1⟩

/-- The state after a completed loop iteration (`none` when the process
exited during the iteration). -/
def iterState : IterOut → Option ShellState
  | .looped s _ _ => some s
  | .exited _ => none

/-- The loop-local `exit` value as of the `while (!exit)` test of a
completed iteration. -/
def iterExitVal : IterOut → Option Int
  | .looped _ e _ => some e
  | .exited _ => none

/-- Whether a completed iteration invoked `kush_run`. -/
def iterRan : IterOut → Option Bool
  | .looped _ _ r => some r
  | .exited _ => none

/-- Whether a `kush_print_prompt` call printed a prompt. -/
def isPrompt : PromptOut → Bool
  | .printed _ _ _ => true
  | _ => false

end Kush


namespace Kush

set_option maxRecDepth 10000

theorem kush_run_fst_printed_prompt (s : ShellState) (args : List String) (env : RunEnv) :
    (kush_run s args env).1.printed_prompt = s.printed_prompt := by
  unfold kush_run kush_exec
  cases args.get? 0 with
  | none => rfl
  | some cmd =>
      simp only
      split
      · rfl
      · split
        · rfl
        · split
          · rfl
          · cases env.fork <;> rfl

/-- C1: the claim says the final NULL write of `kush_tokenize` is always in
bounds, even when the line holds an exact multiple of 64 tokens.  On the
64-token line the tokenizer stores 64 tokens, the growth check
`pos >= buff_size && token != NULL` is skipped because no further token
exists, and the terminating `tokens[64] = NULL` write lands at position 64
in a buffer of capacity 64: out of bounds. -/
theorem c1_terminator_write_out_of_bounds :
    kushTokens line64 = some (List.replicate 64 "a")
    ∧ (kush_tokenize (cbuf line64)).finalPos = 64
    ∧ (kush_tokenize (cbuf line64)).finalCap = 64
    ∧ ¬((kush_tokenize (cbuf line64)).finalPos < (kush_tokenize (cbuf line64)).finalCap) := by
  exact ⟨by decide, by decide, by decide, by decide⟩

/-- C3 counterexample: with a child process running (and the working
directory lookup succeeding), `sig_handler` does not print only a blank
line: it also reprints the prompt, because the reprint (src/kush.c lines
91-95) sits outside the `child_running` conditional. -/
theorem c3_counterexample :
    sig_handler SIGINT ⟨true, true⟩ env0
        = some (⟨true, true⟩, [.blankLine, .prompt "user" "host" "/"])
    ∧ ([OutEvent.blankLine, .prompt "user" "host" "/"] ≠ [OutEvent.blankLine]) := by
  exact ⟨by decide, by decide⟩

/-- C3 amended: on `SIGINT` the handler prints the exit hint only when no
child is running and a blank line when one is; in both cases it then
clears `printed_prompt`, reprints the prompt, and sets `printed_prompt`
back to true (the reprint is unconditional). -/
theorem c3_amended_handler_always_reprints (s : ShellState) (env : PromptEnv) (cwd : String)
    (h : env.getcwdResult = some cwd) :
    sig_handler SIGINT s env
      = some (⟨true, s.child_running⟩,
          [if s.child_running then OutEvent.blankLine else OutEvent.exitHint,
           OutEvent.prompt
             (match env.getpwuidResult with | none => unknown | some n => n)
             (if env.gethostnameErr > 0 then unknown else env.hostnameBuf) cwd]) := by
  cases hc : s.child_running <;>
    cases hu : env.getpwuidResult <;>
      simp [sig_handler, kush_print_prompt, SIGINT, h, hc, hu]

theorem c3_amended_witness :
    sig_handler SIGINT ⟨false, false⟩ env0
      = some (⟨true, false⟩,
          [if false then OutEvent.blankLine else OutEvent.exitHint,
           OutEvent.prompt
             (match (env0).getpwuidResult with | none => unknown | some n => n)
             (if (env0).gethostnameErr > 0 then unknown else (env0).hostnameBuf) "/"]) :=
  c3_amended_handler_always_reprints ⟨false, false⟩ env0 "/" rfl

/-- C4 counterexample: the rejoining rule does not collapse a run of
several delimiter characters into one space: tokenizing `echo "a b  c"`
yields the token `a b  c` with the doubled space preserved, not `a b c`. -/
theorem c4_counterexample :
    kushTokens lineDQSpaces = some ["echo", "a b  c"]
    ∧ ("a b  c" : String) ≠ "a b c"
    ∧ kushTokens lineDQSpaces ≠ some ["echo", "a b c"] := by
  exact ⟨by decide, by decide, by decide⟩

/-- C4 amended: when a quoted span is split across delimiter-separated
runs, the tokenizer puts a single space where the one delimiter character
consumed at the end of each piece stood and preserves any further
delimiter characters of the run verbatim: `echo "a b  c"` keeps its double
space, and in `echo "a<tab><tab>b"` the first tab becomes a space while
the second tab survives. -/
theorem c4_amended_rejoin_preserves_extra_delims :
    kushTokens lineDQSpaces = some ["echo", "a b  c"]
    ∧ kushTokens lineDQTabs = some ["echo", String.mk ['a', ' ', '\t', 'b']] := by
  exact ⟨by decide, by decide⟩

/-- C5 counterexample: when the user lookup fails the username field is
the literal `<UNKNOWN>`, not `UNKNOWN`; and when `gethostname` fails
(returns -1) the hostname field keeps the buffer contents instead of any
sentinel, because the substitution is guarded by `errcode > 0`
(src/kush.c line 72). -/
theorem c5_counterexample :
    kush_print_prompt ⟨false, false⟩ envFail = .printed unknown "garbagehost" "/"
    ∧ unknown ≠ "UNKNOWN"
    ∧ ("garbagehost" : String) ≠ "UNKNOWN"
    ∧ ("garbagehost" : String) ≠ unknown := by
  exact ⟨by decide, by decide, by decide, by decide⟩

/-- C5 amended: when printing the prompt, a failed user lookup substitutes
the literal sentinel `<UNKNOWN>` for the username; the hostname sentinel
substitution is guarded by `errcode > 0`, so on a failed hostname lookup
(`gethostname` returns a negative code) the buffer contents are used
unchanged; in both failure cases the shell continues rather than
exiting. -/
theorem c5_amended_prompt_fallbacks (s : ShellState) (env : PromptEnv) (cwd : String)
    (hc : env.getcwdResult = some cwd) (hp : s.printed_prompt = false) :
    (env.getpwuidResult = none →
        kush_print_prompt s env
          = .printed unknown (if env.gethostnameErr > 0 then unknown else env.hostnameBuf) cwd)
    ∧ (env.gethostnameErr < 0 →
        kush_print_prompt s env
          = .printed (match env.getpwuidResult with | none => unknown | some n => n)
              env.hostnameBuf cwd)
    ∧ kush_print_prompt s env ≠ .exited := by
  have hgt : env.gethostnameErr < 0 → ¬(env.gethostnameErr > 0) := by omega
  refine ⟨?_, ?_, ?_⟩
  · intro hu; simp [kush_print_prompt, hc, hp, hu]
  · intro hh
    cases hu : env.getpwuidResult <;>
      simp [kush_print_prompt, hc, hp, hu, hgt hh]
  · cases hu : env.getpwuidResult <;>
      simp [kush_print_prompt, hc, hp, hu]

theorem c5_amended_witness :
    ((envFail).getpwuidResult = none →
        kush_print_prompt ⟨false, false⟩ envFail
          = .printed unknown
              (if (envFail).gethostnameErr > 0 then unknown else (envFail).hostnameBuf) "/")
    ∧ ((envFail).gethostnameErr < 0 →
        kush_print_prompt ⟨false, false⟩ envFail
          = .printed (match (envFail).getpwuidResult with | none => unknown | some n => n)
              (envFail).hostnameBuf "/")
    ∧ kush_print_prompt ⟨false, false⟩ envFail ≠ .exited :=
  c5_amended_prompt_fallbacks ⟨false, false⟩ envFail "/" rfl rfl

/-- C7: tokenizing `cd 'my folder'` yields exactly the tokens `cd` and
`my folder` (the quoted span with its embedded delimiter is one token and
both quote characters are stripped), and the terminating NULL write lands
in bounds. -/
theorem c7_quoted_span_single_token :
    kushTokens lineCdQuoted = some ["cd", "my folder"]
    ∧ (kush_tokenize (cbuf lineCdQuoted)).finalPos = 2
    ∧ (kush_tokenize (cbuf lineCdQuoted)).finalPos
        < (kush_tokenize (cbuf lineCdQuoted)).finalCap := by
  exact ⟨by decide, by decide, by decide⟩

/-- C9: `kush_exec` returns with `child_running` false; the flag is
written exactly by the bracket `set true, wait, set false` in the parent
branch, and not at all when the fork fails. -/
theorem c9_exec_child_running_flag (s : ShellState) (fr : ForkResult)
    (h : s.child_running = false) :
    (kush_exec s fr).state.child_running = false
    ∧ (kush_exec s fr).ret = 0
    ∧ (fr = .failed → (kush_exec s fr).trace = [.errMsg .forkFailed])
    ∧ (∀ pid, fr = .parent pid →
        (kush_exec s fr).trace
          = [.setChildRunning true, .waited pid, .setChildRunning false]) := by
  cases fr <;> simp [kush_exec, h]

theorem c9_witness :
    (kush_exec ⟨false, false⟩ (.parent 7)).state.child_running = false
    ∧ (kush_exec ⟨false, false⟩ (.parent 7)).ret = 0
    ∧ ((ForkResult.parent 7) = .failed →
        (kush_exec ⟨false, false⟩ (.parent 7)).trace = [.errMsg .forkFailed])
    ∧ (∀ pid, ForkResult.parent 7 = .parent pid →
        (kush_exec ⟨false, false⟩ (.parent 7)).trace
          = [.setChildRunning true, .waited pid, .setChildRunning false]) :=
  c9_exec_child_running_flag ⟨false, false⟩ (.parent 7) rfl

/-- C10: `kush_cd` with two or more arguments reports no error when the
directory change succeeds: it changes into `args[1]`, never reads the
further arguments, and returns 0; the missing-argument error is emitted
exactly when `args[1]` is absent. -/
theorem c10_cd_extra_args (a0 a1 : String) (rest : List String) (f : String → Bool)
    (hs : f a1 = false) :
    kush_cd (a0 :: a1 :: rest) f = ⟨[], some a1, 0⟩
    ∧ (∀ (rest2 : List String) (g : String → Bool),
        kush_cd (a0 :: a1 :: rest) g = kush_cd (a0 :: a1 :: rest2) g)
    ∧ (∀ args : List String, ErrMsg.cdMissingArg ∈ (kush_cd args f).errs ↔ args.get? 1 = none) := by
  refine ⟨by simp [kush_cd, hs], fun rest2 g => by simp [kush_cd], fun args => ?_⟩
  match args with
  | [] => simp [kush_cd]
  | [a] => simp [kush_cd]
  | a :: b :: t =>
      simp only [kush_cd, List.get?]
      split <;> simp

theorem c10_witness :
    kush_cd ("cd" :: "/tmp" :: ["ignored"]) (fun _ => false) = ⟨[], some "/tmp", 0⟩
    ∧ (∀ (rest2 : List String) (g : String → Bool),
        kush_cd ("cd" :: "/tmp" :: ["ignored"]) g = kush_cd ("cd" :: "/tmp" :: rest2) g)
    ∧ (∀ args : List String,
        ErrMsg.cdMissingArg ∈ (kush_cd args (fun _ => false)).errs ↔ args.get? 1 = none) :=
  c10_cd_extra_args "cd" "/tmp" ["ignored"] (fun _ => false) rfl

/-- C8: an iteration of the read-eval loop that reads a line and completes
(no interrupt is modelled inside the loop body) leaves `printed_prompt`
false, whatever the dispatch did; and a `kush_print_prompt` call made with
`printed_prompt` false and a working directory available prints exactly
one prompt. -/
theorem c8_prompt_flag_reset (s : ShellState) (exitVal : Int) (inp : IterIn)
    (content : List Char) (hr : inp.read = .line content)
    (hp : kush_print_prompt s inp.penv ≠ .exited) :
    ((iterState (kush_loop_iter s exitVal inp)).map ShellState.printed_prompt = some false)
    ∧ (∀ (s2 : ShellState) (env2 : PromptEnv),
        s2.printed_prompt = false → env2.getcwdResult ≠ none →
        isPrompt (kush_print_prompt s2 env2) = true) := by
  constructor
  · unfold kush_loop_iter
    cases hpp : kush_print_prompt s inp.penv with
    | exited => exact absurd hpp hp
    | printed u hn c =>
        rw [hr]
        simp only [kush_read_line]
        cases ht : kushTokens content with
        | none => simp [iterState]
        | some args =>
            simp only [iterState, Option.map]
            rw [kush_run_fst_printed_prompt]
    | skipped =>
        rw [hr]
        simp only [kush_read_line]
        cases ht : kushTokens content with
        | none => simp [iterState]
        | some args =>
            simp only [iterState, Option.map]
            rw [kush_run_fst_printed_prompt]
  · intro s2 env2 h2 hcwd
    cases hc : env2.getcwdResult with
    | none => exact absurd hc hcwd
    | some cwd => simp [kush_print_prompt, isPrompt, h2, hc]

theorem c8_witness :
    ((iterState (kush_loop_iter ⟨true, false⟩ 0 ⟨.line ['\n'], env0, renv0⟩)).map
        ShellState.printed_prompt = some false)
    ∧ (∀ (s2 : ShellState) (env2 : PromptEnv),
        s2.printed_prompt = false → env2.getcwdResult ≠ none →
        isPrompt (kush_print_prompt s2 env2) = true) :=
  c8_prompt_flag_reset ⟨true, false⟩ 0 ⟨.line ['\n'], env0, renv0⟩ ['\n'] rfl (by decide)

theorem getD_drop (l : List Char) (i j : Nat) (d : Char) :
    (l.drop i).getD j d = l.getD (i + j) d := by
  rcases lt_or_ge (i + j) l.length with h | h
  · have hj : j < (l.drop i).length := by rw [List.length_drop]; omega
    rw [List.getD_eq_getElem _ _ hj, List.getD_eq_getElem _ _ h]
    exact List.getElem_drop l
  · rw [List.getD_eq_default _ _ (by rw [List.length_drop]; omega),
      List.getD_eq_default _ _ h]

theorem takeWhile_getD_stop (p : Char → Bool) (l : List Char) (d : Char)
    (h : (l.takeWhile p).length < l.length) :
    p (l.getD (l.takeWhile p).length d) = false := by
  induction l with
  | nil => simp at h
  | cons c t ih =>
      rw [List.takeWhile_cons] at h ⊢
      by_cases hp : p c = true
      · simp only [hp, if_true, List.length_cons] at h ⊢
        simpa using ih (by omega)
      · simp only [Bool.not_eq_true] at hp
        simpa [hp] using hp

theorem takeWhile_getD_sat (p : Char → Bool) (l : List Char) (d : Char) (j : Nat)
    (h : j < (l.takeWhile p).length) : p (l.getD j d) = true := by
  induction l generalizing j with
  | nil => simp at h
  | cons c t ih =>
      rw [List.takeWhile_cons] at h
      by_cases hp : p c = true
      · simp only [hp, if_true, List.length_cons] at h
        cases j with
        | zero => simpa using hp
        | succ k => simpa using ih k (by omega)
      · simp [hp] at h

theorem strlenAt_le (buf : List Char) (p : Nat) : strlenAt buf p ≤ buf.length - p := by
  unfold strlenAt
  have := (List.takeWhile_sublist (l := buf.drop p) (fun c => c != NUL)).length_le
  rw [List.length_drop] at this
  exact this

theorem strlenAt_pos_lt (buf : List Char) (p : Nat) (h : 1 ≤ strlenAt buf p) :
    p < buf.length := by
  by_contra hc
  have hd : buf.drop p = [] := List.drop_eq_nil_of_le (by omega)
  unfold strlenAt at h
  rw [hd] at h
  simp at h

theorem strtokNext_some_facts (buf : List Char) (sp ts te : Nat) (buf2 : List Char) (sp2 : Nat)
    (h : strtokNext buf sp = some (ts, te, buf2, sp2)) :
    sp ≤ ts ∧ ts < buf.length ∧ ts < te ∧ sp < sp2 ∧ sp2 ≤ buf.length + 1
      ∧ buf2.length = buf.length := by
  simp only [strtokNext] at h
  split at h
  · exact absurd h (by simp)
  case isFalse hne =>
    have hts : skipDelims buf sp < buf.length := by
      by_contra hc
      exact hne (List.getD_eq_default _ _ (by omega))
    have htsge : sp ≤ skipDelims buf sp := by unfold skipDelims; omega
    have hte1 : skipDelims buf sp + 1 ≤ scanToken buf (skipDelims buf sp + 1) := by
      unfold scanToken; omega
    have hte2 : scanToken buf (skipDelims buf sp + 1) ≤ buf.length := by
      unfold scanToken
      have := (List.takeWhile_sublist (l := buf.drop (skipDelims buf sp + 1))
        (fun c => !isDelim c && c != NUL)).length_le
      rw [List.length_drop] at this
      omega
    split at h <;>
      · simp only [Option.some.injEq, Prod.mk.injEq] at h
        obtain ⟨h1, h2, h3, h4⟩ := h
        subst h1; subst h2; subst h3; subst h4
        refine ⟨htsge, hts, by omega, by omega, by omega, by simp⟩

theorem absorb_some_facts (fuel : Nat) :
    ∀ (buf : List Char) (sp ts te : Nat) (q : Char) (buf2 : List Char) (sp2 : Nat)
      (r : Option (Nat × Nat)),
      absorb fuel buf sp ts te q = some (buf2, sp2, r) →
      buf2.length = buf.length ∧ sp ≤ sp2 := by
  induction fuel with
  | zero => intro buf sp ts te q buf2 sp2 r h; exact absurd h (by simp [absorb])
  | succ fuel ih =>
      intro buf sp ts te q buf2 sp2 r h
      simp only [absorb] at h
      split at h
      · split at h
        · simp only [Option.some.injEq, Prod.mk.injEq] at h
          obtain ⟨h1, h2, _⟩ := h
          subst h1; subst h2
          exact ⟨by simp, le_refl _⟩
        · rename_i ts1 te1 b2 s2 hn
          obtain ⟨hl, hs⟩ := ih _ _ _ _ _ _ _ _ h
          obtain ⟨_, _, _, hlt, _, hbl⟩ := strtokNext_some_facts _ _ _ _ _ _ hn
          rw [List.length_set] at hbl
          exact ⟨by omega, by omega⟩
      · simp only [Option.some.injEq, Prod.mk.injEq] at h
        obtain ⟨h1, h2, _⟩ := h
        subst h1; subst h2
        exact ⟨rfl, le_refl _⟩

theorem close_access_lt (L ts n : Nat) (hts : ts < L) (hL : L < U64)
    (hn : n ≤ L - (ts + 1)) :
    (ts + 1 + ((n + (U64 - 1)) % U64)) % U64 < L := by
  have hU : U64 = 18446744073709551616 := rfl
  rw [hU] at hL ⊢
  rcases Nat.eq_zero_or_pos n with h0 | h1
  · subst h0; omega
  · omega


theorem tokLoop_closeAccesses_lt (fuel : Nat) :
    ∀ (buf : List Char) (sp : Nat) (cur : Option (Nat × Nat)) (pos cap : Nat)
      (acc accs : List Nat),
      buf.length < U64 →
      (∀ x ∈ accs, x < buf.length) →
      (∀ ts te, cur = some (ts, te) → ts < buf.length) →
      ∀ a ∈ (tokLoop fuel buf sp cur pos cap acc accs).closeAccesses, a < buf.length := by
  induction fuel with
  | zero =>
      intro buf sp cur pos cap acc accs hU hacc hcur a ha
      simp only [tokLoop, List.mem_reverse] at ha
      exact hacc a ha
  | succ fuel ih =>
      intro buf sp cur pos cap acc accs hU hacc hcur a ha
      match hc : cur with
      | none =>
          simp only [tokLoop, List.mem_reverse] at ha
          exact hacc a ha
      | some (ts, te) =>
          have hts : ts < buf.length := hcur ts te rfl
          simp only [tokLoop] at ha
          split at ha
          · split at ha
            · simp only [List.mem_reverse] at ha
              exact hacc a ha
            · rename_i buf2 sp2 r habs
              obtain ⟨hlen2, _⟩ := absorb_some_facts _ _ _ _ _ _ _ _ _ habs
              have hb : (ts + 1 + ((strlenAt buf2 (ts + 1) + (U64 - 1)) % U64)) % U64
                  < buf.length := by
                refine close_access_lt buf.length ts _ hts hU ?_
                have := strlenAt_le buf2 (ts + 1)
                omega
              generalize hA : (ts + 1 + ((strlenAt buf2 (ts + 1) + (U64 - 1)) % U64)) % U64 = A at ha hb
              split at ha
              · split at ha
                · rename_i hn
                  have := ih _ sp2 none (pos + 1) cap _ _
                    (by rw [List.length_set, hlen2]; exact hU)
                    (by
                      intro x hx
                      rw [List.length_set, hlen2]
                      rcases List.mem_cons.mp hx with h | h
                      · subst h; exact hb
                      · exact hacc x h)
                    (by intro ts1 te1 h; exact absurd h (by simp)) a ha
                  rw [List.length_set, hlen2] at this
                  exact this
                · rename_i ts1 te1 buf4 sp3 hn
                  obtain ⟨_, hts1, _, _, _, hlen4⟩ := strtokNext_some_facts _ _ _ _ _ _ hn
                  rw [List.length_set, hlen2] at hts1 hlen4
                  have := ih buf4 sp3 (some (ts1, te1)) (pos + 1) _ _ _
                    (by rw [hlen4]; exact hU)
                    (by
                      intro x hx
                      rw [hlen4]
                      rcases List.mem_cons.mp hx with h | h
                      · subst h; exact hb
                      · exact hacc x h)
                    (by
                      intro ts2 te2 h
                      rw [hlen4]
                      cases h
                      exact hts1) a ha
                  rw [hlen4] at this
                  exact this
              · simp only [List.mem_reverse, List.mem_cons] at ha
                rcases ha with h | h
                · subst h; exact hb
                · exact hacc a h
          · split at ha
            · exact ih buf sp none (pos + 1) cap _ _ hU hacc
                (by intro ts1 te1 h; exact absurd h (by simp)) a ha
            · rename_i ts1 te1 buf1 sp1 hn
              obtain ⟨_, hts1, _, _, _, hlen1⟩ := strtokNext_some_facts _ _ _ _ _ _ hn
              have := ih buf1 sp1 (some (ts1, te1)) (pos + 1) _ _ _
                (by rw [hlen1]; exact hU)
                (by intro x hx; rw [hlen1]; exact hacc x hx)
                (by
                  intro ts2 te2 h
                  rw [hlen1]
                  cases h
                  exact hts1) a ha
              rw [hlen1] at this
              exact this
/-- C2: every `&start[strlen(start) - 1]` access of the closing-quote
check (read, and on success the NUL write at the same offset) lands inside
the allocated line buffer, for every input buffer: when `strlen(start)` is
zero the unsigned subtraction wraps and the access resolves to the opening
quote character one byte before `start`, still within the buffer.  So no
line, malformed or not, makes the quote-handling of `kush_tokenize` read
or write outside the line buffer. -/
theorem c2_close_accesses_in_bounds (buf : List Char) (h : buf.length < U64) :
    ((kush_tokenize buf).closeAccesses.all fun a => a < buf.length) = true := by
  rw [List.all_eq_true]
  intro a ha
  simp only [decide_eq_true_eq]
  unfold kush_tokenize at ha
  split at ha
  · exact tokLoop_closeAccesses_lt _ buf 0 none 0 KUSH_TOK_BUFF_SIZE [] [] h
      (by intro x hx; simp at hx) (by intro ts te hh; exact absurd hh (by simp)) a ha
  · rename_i ts te buf1 sp1 hn
    obtain ⟨_, hts, _, _, _, hlen1⟩ := strtokNext_some_facts _ _ _ _ _ _ hn
    have := tokLoop_closeAccesses_lt _ buf1 sp1 (some (ts, te)) 0 KUSH_TOK_BUFF_SIZE [] []
      (by rw [hlen1]; exact h) (by intro x hx; simp at hx)
      (by
        intro ts2 te2 hh
        rw [hlen1]
        cases hh
        exact hts) a ha
    rw [hlen1] at this
    exact this

theorem c2_witness :
    (((cbuf lineSQ).length < U64)
      ∧ ((kush_tokenize (cbuf lineSQ)).closeAccesses.all
          fun a => a < (cbuf lineSQ).length) = true)
    ∧ (kush_tokenize (cbuf lineSQ)).closeAccesses = [0]
    ∧ kushTokens lineSQ = some [""] :=
  ⟨⟨by decide, c2_close_accesses_in_bounds (cbuf lineSQ) (by decide)⟩, by decide, by decide⟩



theorem rd_cbuf (line : List Char) (p : Nat) : rd (cbuf line) p = rdL line p := by
  have hlen : (cbuf line).length = line.length + 1 := by unfold cbuf; simp
  unfold rd rdL
  rcases lt_trichotomy p line.length with h | h | h
  · rw [List.getD_eq_getElem _ _ (by omega), List.getD_eq_getElem _ _ h]
    exact List.getElem_append_left h
  · subst h
    rw [List.getD_eq_default _ _ (le_refl _), List.getD_eq_getElem _ _ (by omega)]
    unfold cbuf
    rw [List.getElem_append_right (by omega)]
    simp
  · rw [List.getD_eq_default _ _ (by omega), List.getD_eq_default _ _ (by omega)]

theorem rd_set_ne (buf : List Char) (i j : Nat) (c : Char) (h : i ≠ j) :
    rd (buf.set i c) j = rd buf j := by
  unfold rd
  rcases lt_or_ge j buf.length with hj | hj
  · rw [List.getD_eq_getElem _ _ (by rw [List.length_set]; exact hj),
      List.getD_eq_getElem _ _ hj]
    exact List.getElem_set_ne h _
  · rw [List.getD_eq_default _ _ (by rw [List.length_set]; exact hj),
      List.getD_eq_default _ _ hj]

theorem rd_set_self (buf : List Char) (i : Nat) (c : Char) (h : i < buf.length) :
    rd (buf.set i c) i = c := by
  unfold rd
  rw [List.getD_eq_getElem _ _ (by rw [List.length_set]; exact h)]
  exact List.getElem_set_self _

theorem rdL_oob (line : List Char) (p : Nat) (h : line.length ≤ p) : rdL line p = NUL :=
  List.getD_eq_default _ _ h

theorem WF_noNul (line : List Char) (hwf : WFline line) (p : Nat) (h : p < line.length) :
    rdL line p ≠ NUL := by
  intro hc
  apply hwf.2.2
  rw [← hc]
  unfold rdL
  rw [List.getD_eq_getElem _ _ h]
  exact List.getElem_mem _

theorem WF_last (line : List Char) (hwf : WFline line) :
    rdL line (line.length - 1) = '\n' := by
  obtain ⟨hne, hlast, _⟩ := hwf
  unfold rdL
  have hl : 0 < line.length := List.length_pos.mpr hne
  rw [List.getD_eq_getElem _ _ (by omega)]
  rw [List.getLast?_eq_getElem?] at hlast
  rw [List.getElem?_eq_getElem (by omega)] at hlast
  exact Option.some.inj hlast

theorem drop_eq_of_agree (line buf : List Char) (k : Nat) (hag : Agree line buf k) :
    buf.drop k = (cbuf line).drop k := by
  obtain ⟨hlen, hsame⟩ := hag
  have hlen2 : (cbuf line).length = line.length + 1 := by unfold cbuf; simp
  apply List.ext_getElem
  · rw [List.length_drop, List.length_drop, hlen, hlen2]
  · intro n h1 h2
    rw [List.getElem_drop, List.getElem_drop]
    have hb1 : k + n < buf.length := by rw [List.length_drop] at h1; omega
    have hb2 : k + n < (cbuf line).length := by rw [List.length_drop] at h2; omega
    have hv := hsame (k + n) (by omega)
    rw [← rd_cbuf] at hv
    have h1f : rd buf (k + n) = buf[k + n] := by
      unfold rd; rw [List.getD_eq_getElem _ _ hb1]
    have h2f : rd (cbuf line) (k + n) = (cbuf line)[k + n] := by
      unfold rd; rw [List.getD_eq_getElem _ _ hb2]
    rw [← h1f, ← h2f]
    exact hv

theorem takeWhile_pred_congr (p q : Char → Bool) (l : List Char)
    (h : ∀ c ∈ l, p c = q c) : l.takeWhile p = l.takeWhile q := by
  induction l with
  | nil => rfl
  | cons c t ih =>
      rw [List.takeWhile_cons, List.takeWhile_cons, h c (by simp),
        ih (fun x hx => h x (by simp [hx]))]

theorem length_takeWhile_append_single (p : Char → Bool) (xs : List Char) (c : Char)
    (hc : p c = false) :
    ((xs ++ [c]).takeWhile p).length = (xs.takeWhile p).length := by
  rw [List.takeWhile_append]
  split
  · rename_i h
    simp [List.takeWhile_cons, hc, h]
  · rfl

theorem Agree_mono (line buf : List Char) (k k2 : Nat) (h : Agree line buf k) (hk : k ≤ k2) :
    Agree line buf k2 :=
  ⟨h.1, fun p hp => h.2 p (by omega)⟩

theorem Agree_cbuf (line : List Char) (k : Nat) : Agree line (cbuf line) k :=
  ⟨by unfold cbuf; simp, fun p _ => rd_cbuf line p⟩

theorem Agree_set_lt (line buf : List Char) (k j : Nat) (c : Char) (h : Agree line buf k)
    (hj : j < k) : Agree line (buf.set j c) k :=
  ⟨by rw [List.length_set]; exact h.1,
   fun p hp => by rw [rd_set_ne _ _ _ _ (by omega)]; exact h.2 p hp⟩

theorem skipDelims_cbuf (line : List Char) (sp : Nat) :
    skipDelims (cbuf line) sp = sp + ((line.drop sp).takeWhile isDelim).length := by
  unfold skipDelims
  congr 1
  rcases le_or_lt sp line.length with h | h
  · have hd : (cbuf line).drop sp = line.drop sp ++ [NUL] := by
      unfold cbuf; rw [List.drop_append_of_le_length h]
    rw [hd, length_takeWhile_append_single _ _ _ (by decide)]
  · have h1 : (cbuf line).drop sp = [] :=
      List.drop_eq_nil_of_le (by unfold cbuf; rw [List.length_append]; simp; omega)
    have h2 : line.drop sp = [] := List.drop_eq_nil_of_le (by omega)
    rw [h1, h2]

theorem scanToken_cbuf (line : List Char) (hwf : WFline line) (i : Nat) :
    scanToken (cbuf line) i = i + ((line.drop i).takeWhile (fun c => !isDelim c)).length := by
  unfold scanToken
  congr 1
  rcases le_or_lt i line.length with h | h
  · have hd : (cbuf line).drop i = line.drop i ++ [NUL] := by
      unfold cbuf; rw [List.drop_append_of_le_length h]
    rw [hd, length_takeWhile_append_single _ _ _ (by decide)]
    rw [takeWhile_pred_congr (fun c => !isDelim c && c != NUL) (fun c => !isDelim c) _ ?_]
    intro c hc
    have hm : c ∈ line := List.mem_of_mem_drop hc
    have hne : c ≠ NUL := fun e => hwf.2.2 (e ▸ hm)
    simp [hne]
  · have h1 : (cbuf line).drop i = [] :=
      List.drop_eq_nil_of_le (by unfold cbuf; rw [List.length_append]; simp; omega)
    have h2 : line.drop i = [] := List.drop_eq_nil_of_le (by omega)
    rw [h1, h2]
    simp

theorem strlenAt_eq_of (buf : List Char) (e : Nat) (he : rd buf e = NUL) :
    ∀ (p : Nat), p ≤ e → (∀ x, p ≤ x → x < e → rd buf x ≠ NUL) →
    strlenAt buf p = e - p := by
  have H : ∀ (k p : Nat), p ≤ e → e - p = k →
      (∀ x, p ≤ x → x < e → rd buf x ≠ NUL) → strlenAt buf p = e - p := by
    intro k
    induction k with
    | zero =>
        intro p h1 h2 h3
        have hpe : p = e := by omega
        subst hpe
        unfold strlenAt
        rcases lt_or_ge p buf.length with hb | hb
        · rw [List.drop_eq_getElem_cons hb, List.takeWhile_cons]
          have hx : (buf[p] != NUL) = false := by
            unfold rd at he
            rw [List.getD_eq_getElem _ _ hb] at he
            simp [he]
          rw [hx]
          simp
        · rw [List.drop_eq_nil_of_le hb]
          simp
    | succ k ih =>
        intro p h1 h2 h3
        have hplt : p < e := by omega
        have hne : rd buf p ≠ NUL := h3 p (le_refl _) hplt
        have hb : p < buf.length := by
          by_contra hc
          exact hne (List.getD_eq_default _ _ (by omega))
        have hx : (buf[p] != NUL) = true := by
          unfold rd at hne
          rw [List.getD_eq_getElem _ _ hb] at hne
          simpa using hne
        have hrec := ih (p + 1) (by omega) (by omega) (fun x hx1 hx2 => h3 x (by omega) hx2)
        unfold strlenAt at hrec ⊢
        rw [List.drop_eq_getElem_cons hb, List.takeWhile_cons, hx]
        simp only [if_true, List.length_cons]
        omega
  exact fun p h1 h3 => H (e - p) p h1 rfl h3

theorem cstrAt_single (buf : List Char) (a : Nat) (h1 : rd buf a ≠ NUL)
    (h2 : rd buf (a + 1) = NUL) : cstrAt buf a = [rd buf a] := by
  have hb : a < buf.length := by
    by_contra hc
    exact h1 (List.getD_eq_default _ _ (by omega))
  unfold cstrAt
  rw [List.drop_eq_getElem_cons hb, List.takeWhile_cons]
  have e1 : (buf[a] != NUL) = true := by
    unfold rd at h1
    rw [List.getD_eq_getElem _ _ hb] at h1
    simpa using h1
  rw [e1]
  simp only [if_true]
  have hrest : (buf.drop (a + 1)).takeWhile (fun c => c != NUL) = [] := by
    rcases lt_or_ge (a + 1) buf.length with hb2 | hb2
    · rw [List.drop_eq_getElem_cons hb2, List.takeWhile_cons]
      have e2 : (buf[a + 1] != NUL) = false := by
        unfold rd at h2
        rw [List.getD_eq_getElem _ _ hb2] at h2
        simp [h2]
      rw [e2]
      simp
    · rw [List.drop_eq_nil_of_le hb2]
      simp
  rw [hrest]
  have : buf[a] = rd buf a := by
    unfold rd
    rw [List.getD_eq_getElem _ _ hb]
  rw [this]

theorem strtokNext_pure (line buf : List Char) (sp : Nat) (hwf : WFline line)
    (hag : Agree line buf sp) :
    (pureNextRun line sp = none ∧ strtokNext buf sp = none)
    ∨ ∃ ts te, pureNextRun line sp = some (ts, te)
        ∧ strtokNext buf sp = some (ts, te, buf.set te NUL, te + 1)
        ∧ sp ≤ ts ∧ RunFacts line (buf.set te NUL) ts te
        ∧ Agree line (buf.set te NUL) (te + 1) := by
  have hL1 : 0 < line.length := List.length_pos.mpr hwf.1
  have hlast := WF_last line hwf
  have hlen : buf.length = line.length + 1 := hag.1
  have hdropsp := drop_eq_of_agree line buf sp hag
  have hskip : skipDelims buf sp = sp + ((line.drop sp).takeWhile isDelim).length := by
    have hx : skipDelims buf sp = skipDelims (cbuf line) sp := by
      unfold skipDelims
      rw [hdropsp]
    rw [hx, skipDelims_cbuf]
  set k := ((line.drop sp).takeWhile isDelim).length with hk
  set ts := sp + k with htsdef
  rcases lt_or_ge ts line.length with hlt | hge
  · have hksm : k < (line.drop sp).length := by rw [List.length_drop]; omega
    have hstop := takeWhile_getD_stop isDelim (line.drop sp) NUL (by rw [← hk]; exact hksm)
    rw [← hk, getD_drop, ← htsdef] at hstop
    have hstop2 : isDelim (rdL line ts) = false := hstop
    have hbts : rd buf ts = rdL line ts := hag.2 ts (by omega)
    have htsnn : rdL line ts ≠ NUL := WF_noNul line hwf ts hlt
    have htsne : ts ≠ line.length - 1 := by
      intro e
      rw [e, hlast] at hstop2
      exact absurd hstop2 (by decide)
    have hag2 : Agree line buf (ts + 1) := Agree_mono line buf sp (ts + 1) hag (by omega)
    have hdrop2 := drop_eq_of_agree line buf (ts + 1) hag2
    have hscan : scanToken buf (ts + 1)
        = ts + 1 + ((line.drop (ts + 1)).takeWhile (fun c => !isDelim c)).length := by
      have hx : scanToken buf (ts + 1) = scanToken (cbuf line) (ts + 1) := by
        unfold scanToken
        rw [hdrop2]
      rw [hx, scanToken_cbuf line hwf]
    set m := ((line.drop (ts + 1)).takeWhile (fun c => !isDelim c)).length with hm
    set te := ts + 1 + m with htedef
    have hmle : m ≤ line.length - (ts + 1) := by
      have := (List.takeWhile_sublist (l := line.drop (ts + 1)) (fun c => !isDelim c)).length_le
      rw [List.length_drop] at this
      omega
    have hrun : ∀ p, ts ≤ p → p < te → isDelim (rdL line p) = false := by
      intro p hp1 hp2
      rcases eq_or_lt_of_le hp1 with e | hlt2
      · rw [← e]; exact hstop2
      · have hj : p - (ts + 1) < m := by omega
        have hs := takeWhile_getD_sat (fun c => !isDelim c) (line.drop (ts + 1)) NUL
          (p - (ts + 1)) (by rw [← hm]; exact hj)
        rw [getD_drop] at hs
        have hpe : ts + 1 + (p - (ts + 1)) = p := by omega
        rw [hpe] at hs
        simp only [Bool.not_eq_true'] at hs
        exact hs
    have htelt : te < line.length := by
      by_contra hcc
      have hx : isDelim (rdL line (line.length - 1)) = false :=
        hrun (line.length - 1) (by omega) (by omega)
      rw [hlast] at hx
      exact absurd hx (by decide)
    have hdelim_te : isDelim (rdL line te) = true := by
      have hmlt : m < (line.drop (ts + 1)).length := by rw [List.length_drop]; omega
      have hs := takeWhile_getD_stop (fun c => !isDelim c) (line.drop (ts + 1)) NUL
        (by rw [← hm]; exact hmlt)
      rw [← hm, getD_drop, ← htedef] at hs
      simp only [Bool.not_eq_false'] at hs
      exact hs
    right
    refine ⟨ts, te, ?_, ?_, by omega, ?_, ?_⟩
    · simp only [pureNextRun]
      rw [← hk, ← htsdef, if_pos hlt, ← hm, ← htedef]
    · simp only [strtokNext]
      rw [hskip, if_neg (by rw [hbts]; exact htsnn), hscan,
        if_pos (by rw [hag2.2 te (by omega)]; exact hdelim_te)]
    · refine ⟨by omega, by omega, hdelim_te, ?_, ?_, ?_⟩
      · intro p h1 h2
        simp [hrun p h1 h2]
      · exact rd_set_self buf te NUL (by omega)
      · intro p h1 h2
        rw [rd_set_ne _ _ _ _ (by omega)]
        exact hag.2 p (by omega)
    · exact Agree_set_lt line buf (te + 1) te NUL
        (Agree_mono line buf sp (te + 1) hag (by omega)) (by omega)
  · left
    constructor
    · simp only [pureNextRun]
      rw [← hk, ← htsdef, if_neg (by omega)]
    · simp only [strtokNext]
      rw [hskip, if_pos (by rw [hag.2 ts (by omega)]; exact rdL_oob line ts hge)]

theorem specScan_eq (line : List Char) (sp : Nat) :
    specScan line sp
      = match pureNextRun line sp with
        | none => none
        | some (ts, te) => specAfterFetch line ts te := by
  rw [specScan]
  rcases h : pureNextRun line sp with _ | ⟨ts, te⟩ <;> simp [specAfterFetch]

theorem specAbsorb_eq (line : List Char) (q : Char) (te : Nat) :
    specAbsorb line q te
      = if rdL line (te - 1) = q then specScan line (te + 1)
        else
          match pureNextRun line (te + 1) with
          | none => some q
          | some (_, te1) => specAbsorb line q te1 := by
  rw [specAbsorb]
  split
  · rfl
  · rcases h : pureNextRun line (te + 1) with _ | ⟨ts1, te1⟩ <;> simp

theorem absorb_pure (fuelA : Nat) :
    ∀ (line buf : List Char) (q : Char) (ts te start0 : Nat),
      WFline line →
      (q = DQ ∨ q = SQ) →
      line.length + 1 ≤ fuelA + te →
      Agree line buf (te + 1) →
      RunFacts line buf ts te →
      1 ≤ start0 →
      start0 ≤ ts + 1 →
      rd buf (start0 - 1) = q →
      (∀ p, start0 ≤ p → p < te → rd buf p ≠ NUL) →
      AbsorbPost line q start0 te (absorb fuelA buf (te + 1) ts te q) := by
  induction fuelA with
  | zero =>
      intro line buf q ts te start0 hwf hqm hfuel hag hrf hs1 hs2 hq0 hzone
      exact absurd hfuel (by have := hrf.2.1; omega)
  | succ fuelA ih =>
      intro line buf q ts te start0 hwf hqm hfuel hag hrf hs1 hs2 hq0 hzone
      obtain ⟨htste, hteL, hdte, hndrun, hnul_te, hcontent⟩ := hrf
      have hqnn : q ≠ NUL := by rcases hqm with rfl | rfl <;> decide
      have hO : ∀ x, ts ≤ x → x < te → rd buf x ≠ NUL := by
        intro x h1 h2
        rcases lt_or_ge x start0 with hx | hx
        · have : x = start0 - 1 := by omega
          rw [this, hq0]
          exact hqnn
        · exact hzone x hx h2
      have hstrlen : strlenAt buf ts = te - ts := strlenAt_eq_of buf te hnul_te ts (by omega) hO
      have hidx : ts + strlenAt buf ts - 1 = te - 1 := by rw [hstrlen]; omega
      have hm1 : te - 1 < te := by omega
      have hm2 : ts ≤ te - 1 := by omega
      have hcs : cstrAt buf (te - 1) = [rd buf (te - 1)] :=
        cstrAt_single buf (te - 1) (hO (te - 1) hm2 hm1)
          (by have : te - 1 + 1 = te := by omega
              rw [this]; exact hnul_te)
      have hval : rd buf (te - 1) = rdL line (te - 1) := hcontent (te - 1) hm2 hm1
      by_cases hc : rdL line (te - 1) = q
      · -- closing quote at the end of the current run: loop exits now
        have hcond : ((q == DQ && !(cstrAt buf (ts + strlenAt buf ts - 1) == [DQ]))
            || (q == SQ && !(cstrAt buf (ts + strlenAt buf ts - 1) == [SQ]))) = false := by
          rw [hidx, hcs, hval, hc]
          rcases hqm with rfl | rfl <;> decide
        left
        refine ⟨buf, ts, te, ?_, ?_, hag, by omega, le_refl _, by omega, ?_, ?_, hnul_te⟩
        · simp only [absorb]
          rw [hcond]
          simp
        · rw [specAbsorb_eq, if_pos hc]
        · exact strlenAt_eq_of buf te hnul_te start0 (by omega)
            (fun x h1 h2 => hzone x h1 h2)
        · rw [hval, hc]
      · -- current run does not close the span: restore the NUL and continue
        have hcond : ((q == DQ && !(cstrAt buf (ts + strlenAt buf ts - 1) == [DQ]))
            || (q == SQ && !(cstrAt buf (ts + strlenAt buf ts - 1) == [SQ]))) = true := by
          rw [hidx, hcs, hval]
          rcases hqm with rfl | rfl <;> simp [hc]
        have hidx2 : ts + strlenAt buf ts = te := by rw [hstrlen]; omega
        have hL1 : 0 < line.length := List.length_pos.mpr hwf.1
        have hlast := WF_last line hwf
        have hlen : buf.length = line.length + 1 := hag.1
        have hbuf1 : buf.set (ts + strlenAt buf ts) ' ' = buf.set te ' ' := by rw [hidx2]
        have hag1 : Agree line (buf.set te ' ') (te + 1) :=
          Agree_set_lt line buf (te + 1) te ' ' hag (by omega)
        -- the zone of already-rejoined text keeps no NUL after the restore
        have hzone1 : ∀ p, start0 ≤ p → p ≤ te → rd (buf.set te ' ') p ≠ NUL := by
          intro p h1 h2
          rcases eq_or_lt_of_le h2 with e | hlt2
          · rw [e, rd_set_self buf te ' ' (by omega)]
            decide
          · rw [rd_set_ne _ _ _ _ (by omega)]
            exact hzone p h1 hlt2
        have hq1 : rd (buf.set te ' ') (start0 - 1) = q := by
          rw [rd_set_ne _ _ _ _ (by omega)]
          exact hq0
        rcases strtokNext_pure line (buf.set te ' ') (te + 1) hwf hag1 with
          ⟨hpn, hsn⟩ | ⟨ts1, te1, hpn, hsn, hsple, hrf1, hag2⟩
        · -- input exhausted: unterminated span
          right
          refine ⟨buf.set te ' ', te + 1, ?_, ?_, by rw [List.length_set]; exact hlen,
            ?_, by omega, ?_, ?_, ?_, ?_⟩
          · simp only [absorb]
            rw [hcond]
            simp only [if_true, hbuf1]
            rw [hsn]
          · rw [specAbsorb_eq, if_neg hc, hpn]
          · refine strlenAt_eq_of _ line.length ?_ start0 (by omega) ?_
            · rw [rd_set_ne _ _ _ _ (by omega)]
              rw [hag.2 line.length (by omega)]
              exact rdL_oob line line.length (le_refl _)
            · intro x h1 h2
              rcases lt_or_ge x te with hx | hx
              · rw [rd_set_ne _ _ _ _ (by omega)]
                exact hzone x h1 hx
              · rcases eq_or_lt_of_le hx with e | hx2
                · rw [← e, rd_set_self buf te ' ' (by omega)]
                  decide
                · rw [rd_set_ne _ _ _ _ (by omega), hag.2 x (by omega)]
                  exact WF_noNul line hwf x h2
          · rcases lt_or_ge te (line.length - 1) with hx | hx
            · rw [rd_set_ne _ _ _ _ (by omega), hag.2 (line.length - 1) (by omega), hlast]
              decide
            · have : te = line.length - 1 := by omega
              rw [← this, rd_set_self buf te ' ' (by omega)]
              decide
          · rcases lt_or_ge te (line.length - 1) with hx | hx
            · rw [rd_set_ne _ _ _ _ (by omega), hag.2 (line.length - 1) (by omega), hlast]
              decide
            · have : te = line.length - 1 := by omega
              rw [← this, rd_set_self buf te ' ' (by omega)]
              decide
          · rcases lt_or_ge te (line.length - 1) with hx | hx
            · rw [rd_set_ne _ _ _ _ (by omega), hag.2 (line.length - 1) (by omega), hlast]
              decide
            · have : te = line.length - 1 := by omega
              rw [← this, rd_set_self buf te ' ' (by omega)]
              decide
          · rw [rd_set_ne _ _ _ _ (by omega), hag.2 line.length (by omega)]
            exact rdL_oob line line.length (le_refl _)
        · -- a further run exists: absorb it and recurse
          have hA : ts1 < te1 := hrf1.1
          have hB : te1 + 1 ≤ line.length := hrf1.2.1
          have hpost := ih line ((buf.set te ' ').set te1 NUL) q ts1 te1 start0 hwf hqm
            (by omega)
            hag2 hrf1 hs1 (by omega)
            (by
              rw [rd_set_ne _ _ _ _ (by omega)]
              exact hq1)
            (by
              intro p h1 h2
              rw [rd_set_ne _ _ _ _ (by omega)]
              rcases lt_or_ge p te with hx | hx
              · rw [rd_set_ne _ _ _ _ (by omega)]
                exact hzone p h1 hx
              · rcases eq_or_lt_of_le hx with e | hx2
                · rw [← e, rd_set_self buf te ' ' (by omega)]
                  decide
                · rw [rd_set_ne _ _ _ _ (by omega), hag.2 p (by omega)]
                  exact WF_noNul line hwf p (by omega))
          have habs : absorb (fuelA + 1) buf (te + 1) ts te q
              = absorb fuelA ((buf.set te ' ').set te1 NUL) (te1 + 1) ts1 te1 q := by
            simp only [absorb]
            rw [hcond]
            simp only [if_true, hbuf1]
            rw [hsn]
          rw [habs]
          have hspec : specAbsorb line q te = specAbsorb line q te1 := by
            rw [specAbsorb_eq, if_neg hc, hpn]
          rcases hpost with ⟨buf2, tsL, teL, g1, g2, g3, g4, g5, g6, g7, g8, g9⟩
            | ⟨buf2, spF, h1, h2, h3⟩
          · exact Or.inl ⟨buf2, tsL, teL, g1, by rw [hspec]; exact g2, g3, g4,
              by omega, g6, g7, g8, g9⟩
          · exact Or.inr ⟨buf2, spF, h1, by rw [hspec]; exact h2, h3⟩

theorem close_access_eq (s n L : Nat) (h1 : 1 ≤ s) (h2 : s + n ≤ L) (hL : L < U64) :
    (s + ((n + (U64 - 1)) % U64)) % U64 = s + n - 1 := by
  have hU : U64 = 18446744073709551616 := rfl
  rw [hU] at hL ⊢
  rcases Nat.eq_zero_or_pos n with h0 | h3
  · subst h0; omega
  · omega

theorem tokLoop_fail_iff (fuel : Nat) :
    ∀ (line buf : List Char) (ts te pos cap : Nat) (acc accs : List Nat),
      WFline line →
      line.length < U64 →
      line.length + 2 ≤ fuel + (te + 1) →
      Agree line buf (te + 1) →
      RunFacts line buf ts te →
      (∀ q, ((tokLoop fuel buf (te + 1) (some (ts, te)) pos cap acc accs).res = .fail q
          ↔ specAfterFetch line ts te = some q))
      ∧ (specAfterFetch line ts te = none →
          ∃ offs, (tokLoop fuel buf (te + 1) (some (ts, te)) pos cap acc accs).res
            = .ok offs) := by
  induction fuel with
  | zero =>
      intro line buf ts te pos cap acc accs hwf hsz hfuel hag hrf
      exact absurd hfuel (by have := hrf.2.1; omega)
  | succ fuel ih =>
      intro line buf ts te pos cap acc accs hwf hsz hfuel hag hrf
      have hbts : rd buf ts = rdL line ts := hrf.2.2.2.2.2 ts (le_refl _) hrf.1
      have htelt : te + 1 ≤ line.length := hrf.2.1
      have htste : ts < te := hrf.1
      by_cases hq : rdL line ts = DQ ∨ rdL line ts = SQ
      · -- quoted-span branch
        have hcond : (rd buf ts == DQ || rd buf ts == SQ) = true := by
          rw [hbts]
          rcases hq with h | h <;> simp [h]
        have hpost := absorb_pure (fuel + 1) line buf (rd buf ts) ts te (ts + 1) hwf
          (by rw [hbts]; exact hq) (by omega) hag hrf (by omega) (le_refl _)
          (by simp) (by
            intro p h1 h2
            rw [hrf.2.2.2.2.2 p (by omega) h2]
            exact WF_noNul line hwf p (by omega))
        have hafq : specAfterFetch line ts te = specAbsorb line (rd buf ts) te := by
          unfold specAfterFetch
          rw [if_pos hq, hbts]
        rcases hpost with
          ⟨buf2, tsL, teL, h1, h2, hag2, hsteL, hteteL, hteL1, hstrl, hclose, hnulteL⟩
        | ⟨buf2, spF, h1, h2, hlen2, hstrl, hs0, hnn1, hnn2, hnn3, hnn4⟩
        · -- the span closes at teL: the close check succeeds and the loop goes on
          have hqnn : rd buf ts ≠ NUL := by
            rw [hbts]; rcases hq with h | h <;> rw [h] <;> decide
          have hAeq : (ts + 1 + ((strlenAt buf2 (ts + 1) + (U64 - 1)) % U64)) % U64
              = teL - 1 := by
            rw [hstrl]
            have := close_access_eq (ts + 1) (teL - (ts + 1)) line.length (by omega)
              (by omega) hsz
            rw [this]
            omega
          have hteL0 : 1 ≤ teL := by omega
          have hcstr : cstrAt buf2 (teL - 1) = [rd buf ts] := by
            have := cstrAt_single buf2 (teL - 1) (by rw [hclose]; exact hqnn)
              (by
                have he : teL - 1 + 1 = teL := by omega
                rw [he]; exact hnulteL)
            rw [this, hclose]
          have hcond2 : ((rd buf ts == DQ && cstrAt buf2 (teL - 1) == [DQ])
              || (rd buf ts == SQ && cstrAt buf2 (teL - 1) == [SQ])) = true := by
            rw [hcstr, hbts]
            rcases hq with h | h <;> rw [h] <;> decide
          have hag3 : Agree line (buf2.set (teL - 1) NUL) (teL + 1) :=
            Agree_set_lt line buf2 (teL + 1) (teL - 1) NUL hag2 (by omega)
          have hspec2 : specAfterFetch line ts te = specScan line (teL + 1) := by
            rw [hafq, h2]
          constructor
          · intro q0
            simp only [tokLoop]
            rw [if_pos hcond, h1]
            dsimp only
            rw [hAeq, if_pos hcond2]
            rcases strtokNext_pure line (buf2.set (teL - 1) NUL) (teL + 1) hwf hag3 with
              ⟨hpn, hsn⟩ | ⟨ts2, te2, hpn, hsn, hsple, hrf2, hag4⟩
            · rw [hsn]; dsimp only
              have hok : ∀ b s p c a as, (tokLoop fuel b s none p c a as).res
                  = .ok a.reverse := by
                intro b s p c a as
                obtain ⟨f1, hf⟩ : ∃ f1, fuel = f1 + 1 := ⟨fuel - 1, by omega⟩
                subst hf
                simp only [tokLoop]
              rw [hok]
              constructor
              · intro hcc; exact absurd hcc (by simp)
              · intro hcc
                rw [hspec2, specScan_eq, hpn] at hcc
                exact absurd hcc (by simp)
            · rw [hsn]; dsimp only
              have hrec := ih line (buf2.set (teL - 1) NUL |>.set te2 NUL) ts2 te2
                (pos + 1) (if cap ≤ pos + 1 then cap + KUSH_TOK_BUFF_SIZE else cap)
                ((ts + 1) :: acc) ((teL - 1) :: accs) hwf hsz
                (by have := hrf2.1; have := hrf2.2.1; omega) hag4 hrf2
              rw [(hrec.1 q0)]
              rw [hspec2, specScan_eq, hpn]
          · intro hnone
            simp only [tokLoop]
            rw [if_pos hcond, h1]
            dsimp only
            rw [hAeq, if_pos hcond2]
            rcases strtokNext_pure line (buf2.set (teL - 1) NUL) (teL + 1) hwf hag3 with
              ⟨hpn, hsn⟩ | ⟨ts2, te2, hpn, hsn, hsple, hrf2, hag4⟩
            · rw [hsn]; dsimp only
              obtain ⟨f1, hf⟩ : ∃ f1, fuel = f1 + 1 := ⟨fuel - 1, by omega⟩
              subst hf
              exact ⟨((ts + 1) :: acc).reverse, by simp only [tokLoop]⟩
            · rw [hsn]; dsimp only
              have hrec := ih line (buf2.set (teL - 1) NUL |>.set te2 NUL) ts2 te2
                (pos + 1) (if cap ≤ pos + 1 then cap + KUSH_TOK_BUFF_SIZE else cap)
                ((ts + 1) :: acc) ((teL - 1) :: accs) hwf hsz
                (by have := hrf2.1; have := hrf2.2.1; omega) hag4 hrf2
              refine hrec.2 ?_
              rw [hspec2, specScan_eq, hpn] at hnone
              exact hnone
        · -- the span never closes: the close check fails and NULL is returned
          have hAeq : (ts + 1 + ((strlenAt buf2 (ts + 1) + (U64 - 1)) % U64)) % U64
              = line.length - 1 := by
            rw [hstrl]
            have := close_access_eq (ts + 1) (line.length - (ts + 1)) line.length
              (by omega) (by omega) hsz
            rw [this]
            omega
          have hcstr : cstrAt buf2 (line.length - 1) = [rd buf2 (line.length - 1)] :=
            cstrAt_single buf2 (line.length - 1) hnn1
              (by
                have he : line.length - 1 + 1 = line.length := by omega
                rw [he]; exact hnn4)
          have hcond2 : ((rd buf ts == DQ && cstrAt buf2 (line.length - 1) == [DQ])
              || (rd buf ts == SQ && cstrAt buf2 (line.length - 1) == [SQ])) = false := by
            rw [hcstr, hbts]
            rcases hq with h | h <;> rw [h] <;> simp [hnn2, hnn3]
          have hspec2 : specAfterFetch line ts te = some (rd buf ts) := by
            rw [hafq, h2]
          constructor
          · intro q0
            simp only [tokLoop]
            rw [if_pos hcond, h1]
            dsimp only
            rw [hAeq, if_neg (by rw [hcond2]; simp)]
            rw [hspec2]
            constructor
            · intro hcc
              simp only [TokResult.fail.injEq] at hcc
              rw [hcc]
            · intro hcc
              simp only [Option.some.injEq] at hcc
              rw [hcc]
          · intro hnone
            rw [hspec2] at hnone
            exact absurd hnone (by simp)
      · -- plain-token branch
        have hcond : (rd buf ts == DQ || rd buf ts == SQ) = false := by
          rw [hbts]
          push_neg at hq
          simp [hq.1, hq.2]
        have hspec2 : specAfterFetch line ts te = specScan line (te + 1) := by
          unfold specAfterFetch
          rw [if_neg hq]
        constructor
        · intro q0
          simp only [tokLoop]
          rw [if_neg (by rw [hcond]; simp)]
          rcases strtokNext_pure line buf (te + 1) hwf hag with
            ⟨hpn, hsn⟩ | ⟨ts2, te2, hpn, hsn, hsple, hrf2, hag4⟩
          · rw [hsn]; dsimp only
            have hok : (tokLoop fuel buf (te + 1) none (pos + 1) cap (ts :: acc) accs).res
                = .ok (ts :: acc).reverse := by
              obtain ⟨f1, hf⟩ : ∃ f1, fuel = f1 + 1 := ⟨fuel - 1, by omega⟩
              subst hf
              simp only [tokLoop]
            rw [hok]
            constructor
            · intro hcc; exact absurd hcc (by simp)
            · intro hcc
              rw [hspec2, specScan_eq, hpn] at hcc
              exact absurd hcc (by simp)
          · rw [hsn]; dsimp only
            have hrec := ih line (buf.set te2 NUL) ts2 te2
              (pos + 1) (if cap ≤ pos + 1 then cap + KUSH_TOK_BUFF_SIZE else cap)
              (ts :: acc) accs hwf hsz
              (by have := hrf2.1; have := hrf2.2.1; omega) hag4 hrf2
            rw [(hrec.1 q0)]
            rw [hspec2, specScan_eq, hpn]
        · intro hnone
          simp only [tokLoop]
          rw [if_neg (by rw [hcond]; simp)]
          rcases strtokNext_pure line buf (te + 1) hwf hag with
            ⟨hpn, hsn⟩ | ⟨ts2, te2, hpn, hsn, hsple, hrf2, hag4⟩
          · rw [hsn]; dsimp only
            obtain ⟨f1, hf⟩ : ∃ f1, fuel = f1 + 1 := ⟨fuel - 1, by omega⟩
            subst hf
            exact ⟨(ts :: acc).reverse, by simp only [tokLoop]⟩
          · rw [hsn]; dsimp only
            have hrec := ih line (buf.set te2 NUL) ts2 te2
              (pos + 1) (if cap ≤ pos + 1 then cap + KUSH_TOK_BUFF_SIZE else cap)
              (ts :: acc) accs hwf hsz
              (by have := hrf2.1; have := hrf2.2.1; omega) hag4 hrf2
            refine hrec.2 ?_
            rw [hspec2, specScan_eq, hpn] at hnone
            exact hnone

/-- C6: tokenization fails with quote character `q` (the NULL return of
`kush_tokenize`, whose error message names `q`) exactly when the
spec-level scan of the line's delimiter-split runs finds a span opened
with `q` and no run ending with the matching closing quote before input
is exhausted; no token list is produced exactly in that case; and a loop
iteration whose line fails to tokenize dispatches nothing and reaches the
`while (!exit)` test with `exit` unchanged, so the loop continues. -/
theorem c6_unterminated_quote_iff (line : List Char) (hwf : WFline line)
    (hsz : line.length < U64) (s : ShellState) (exitVal : Int) (inp : IterIn)
    (content : List Char) (hr : inp.read = .line content)
    (htf : kushTokens content = none)
    (hp : kush_print_prompt s inp.penv ≠ .exited) :
    (∀ q, ((kush_tokenize (cbuf line)).res = .fail q ↔ specScan line 0 = some q))
    ∧ (tokenStrings (kush_tokenize (cbuf line)) = none ↔ (specScan line 0).isSome = true)
    ∧ kush_loop_iter s exitVal inp
        = .looped { s with printed_prompt := false } exitVal false := by
  have hlen : (cbuf line).length = line.length + 1 := by unfold cbuf; simp
  have hmain : (∀ q, ((kush_tokenize (cbuf line)).res = .fail q ↔ specScan line 0 = some q))
      ∧ (specScan line 0 = none → ∃ offs, (kush_tokenize (cbuf line)).res = .ok offs) := by
    unfold kush_tokenize
    rcases strtokNext_pure line (cbuf line) 0 hwf (Agree_cbuf line 0) with
      ⟨hpn, hsn⟩ | ⟨ts, te, hpn, hsn, hsple, hrf2, hag4⟩
    · rw [hsn]; dsimp only
      have hok : (tokLoop ((cbuf line).length + 2) (cbuf line) 0 none 0
          KUSH_TOK_BUFF_SIZE [] []).res = .ok ([] : List Nat).reverse := by
        rw [hlen]
        simp only [tokLoop]
      rw [hok]
      have hscan0 : specScan line 0 = none := by rw [specScan_eq, hpn]
      refine ⟨fun q => ?_, fun _ => ⟨_, rfl⟩⟩
      rw [hscan0]
      constructor
      · intro hcc; exact absurd hcc (by simp)
      · intro hcc; exact absurd hcc (by simp)
    · rw [hsn]; dsimp only
      have hrec := tokLoop_fail_iff ((cbuf line).length + 2) line ((cbuf line).set te NUL)
        ts te 0 KUSH_TOK_BUFF_SIZE [] [] hwf hsz
        (by rw [hlen]; omega) hag4 hrf2
      have hscan0 : specScan line 0 = specAfterFetch line ts te := by
        rw [specScan_eq, hpn]
      rw [hscan0]
      exact hrec
  refine ⟨hmain.1, ?_, ?_⟩
  · constructor
    · intro hts
      rcases hso : specScan line 0 with _ | q0
      · obtain ⟨offs, hoffs⟩ := hmain.2 hso
        unfold tokenStrings at hts
        rw [hoffs] at hts
        exact absurd hts (by simp)
      · simp
    · intro his
      rcases hso : specScan line 0 with _ | q0
      · rw [hso] at his
        exact absurd his (by simp)
      · have := (hmain.1 q0).mpr hso
        unfold tokenStrings
        rw [this]
  · unfold kush_loop_iter
    cases hpp : kush_print_prompt s inp.penv with
    | exited => exact absurd hpp hp
    | printed u hn c =>
        rw [hr]
        simp only [kush_read_line]
        rw [htf]
    | skipped =>
        rw [hr]
        simp only [kush_read_line]
        rw [htf]

theorem c6_witness :
    ((WFline lineUnterm ∧ lineUnterm.length < U64 ∧ kushTokens lineUnterm = none
        ∧ (kush_tokenize (cbuf lineUnterm)).res = .fail DQ)
      ∧ (∀ q, ((kush_tokenize (cbuf lineUnterm)).res = .fail q
          ↔ specScan lineUnterm 0 = some q)))
    ∧ (tokenStrings (kush_tokenize (cbuf lineUnterm)) = none
        ↔ (specScan lineUnterm 0).isSome = true)
    ∧ kush_loop_iter ⟨false, false⟩ 0 ⟨.line lineUnterm, env0, renv0⟩
        = .looped { (⟨false, false⟩ : ShellState) with printed_prompt := false } 0 false := by
  have h := c6_unterminated_quote_iff lineUnterm (by decide) (by decide)
    ⟨false, false⟩ 0 ⟨.line lineUnterm, env0, renv0⟩ lineUnterm rfl (by decide) (by decide)
  exact ⟨⟨⟨by decide, by decide, by decide, by decide⟩, h.1⟩, h.2.1, h.2.2⟩

end Kush
